import Mathlib

/-! Simon Says (STM32): game logic.

A shallow embedding of `Core/Src/game.c` and of the main loop of
`Core/Src/main.c`.

* Machine integers are natural numbers, reduced modulo `2^8` or `2^16`
  wherever the C type can wrap.
* The hardware is an explicit input: the analog samples returned by
  `HAL_ADC_GetValue` and the pin levels seen by `HAL_GPIO_ReadPin` are
  arguments of the functions that read them.
* The effects (pin writes, delays, mode changes) are returned as a list of
  `Event`s in program order.
* A channel is named by its index into `portList`/`pinList`.
-/

namespace SimonSays

/-! ## Constants (`defines.h`, `main.c`) -/

/-- Capacity of the sequence buffer, `#define MAX_STEPS 100`. -/
def MAX_STEPS : Nat := 100

/-- Score blink on-time, `#define SCORE_BLINK_ON 200`. -/
def SCORE_BLINK_ON : Nat := 200

/-- Score blink off-time, `#define SCORE_BLINK_OFF 200`. -/
def SCORE_BLINK_OFF : Nat := 200

/-- Playback delays, `uint8_t delayTimes[4] = { 255, 127, 63, 31 }`, as the
function from an index to the entry (only indices `0..3` are ever formed,
the index being masked with `& 3`). -/
def delayTimes (i : Nat) : Nat :=
  match i with
  | 0 => 255
  | 1 => 127
  | 2 => 63
  | 3 => 31
  | _ => 0

/-! ## Events -/

/-- Level of a pin, `GPIO_PinState`. -/
inductive PinState
  | GPIO_PIN_RESET
  | GPIO_PIN_SET
  deriving DecidableEq, Repr

/-- The calls through which the game code acts on the hardware. A write
`HAL_GPIO_WritePin(portList[c], pinList[c], level)` is recorded with the
channel index `c`. -/
inductive Event
  | setPinsAsInputs
  | setPinsAsOutputs
  | HAL_Delay (ms : Nat)
  | HAL_ADC_GetValue (v : Nat)
  | HAL_GPIO_WritePin (ch : Nat) (level : PinState)
  deriving DecidableEq, Repr

/-! ## Random generator (`calculateNewRandom`, game.c:127-150) -/

/-- Body of the `for` loop of `calculateNewRandom` at loop index `i`
(game.c:137-145): `sample` is what `HAL_ADC_GetValue` returns, `seed` is the
`uint16_t` accumulator and `temp` the `uint8_t` diffusion byte. Returns the
new `seed`, the new `temp` and the events of this pass. -/
def randomBody (i sample seed temp : Nat) : Nat × Nat × List Event :=
  let jitter := if i > 22 then [Event.HAL_Delay (temp &&& 3)] else []
  let seed1 := (seed ^^^ sample) % 65536
  let seed2 := (2053 * seed1 + 13849) % 65536
  let temp1 := (seed2 ^^^ (seed2 >>> 8)) % 256
  let temp2 := (temp1 ^^^ (temp1 >>> 4)) % 256
  (seed2, temp2, jitter ++ [Event.HAL_ADC_GetValue sample])

/-- The loop `for (i = ...; i < 25; i++)` of `calculateNewRandom`, with `todo`
passes left to run starting at index `i`; `adc j` is the sample read in pass
`j`. -/
def randomLoop (adc : Nat → Nat) : Nat → Nat → Nat → Nat → Nat × Nat × List Event
  | 0, _, seed, temp => (seed, temp, [])
  | todo + 1, i, seed, temp =>
    let r := randomBody i (adc i) seed temp
    let rest := randomLoop adc todo (i + 1) r.1 r.2.1
    (rest.1, rest.2.1, r.2.2 ++ rest.2.2)

/-- Model of `calculateNewRandom`. The locals `seed` and `temp` are declared
without an initialiser (game.c:129-130), so the values they hold on entry,
`seed0` and `temp0`, are arguments. Returns the digit and the events. -/
def calculateNewRandom (seed0 temp0 : Nat) (adc : Nat → Nat) : Nat × List Event :=
  let r := randomLoop adc 25 0 seed0 temp0
  ((r.2.1 ^^^ (r.2.1 >>> 2)) &&& 3,
    Event.setPinsAsInputs :: Event.HAL_Delay 1 :: r.2.2)

/-! ## Playback (`showSequence`, game.c:109-120) -/

/-- The loop `for (i = ...; i <= _n; i++)` of `showSequence` (game.c:113-118)
with `todo` passes left, starting at index `i`: one blink of channel `_s[i]`
per pass, both delays being `delayTimes[(_n / 50) & 3]`. -/
def showSequenceLoop (s : Nat → Nat) (n : Nat) (dt : Nat → Nat) : Nat → Nat → List Event
  | 0, _ => []
  | todo + 1, i =>
    Event.HAL_GPIO_WritePin (s i) PinState.GPIO_PIN_RESET ::
    Event.HAL_Delay (dt ((n / 50) &&& 3)) ::
    Event.HAL_GPIO_WritePin (s i) PinState.GPIO_PIN_SET ::
    Event.HAL_Delay (dt ((n / 50) &&& 3)) ::
    showSequenceLoop s n dt todo (i + 1)

/-- Model of `showSequence(_s, _n, hadc, delayTimes, ...)`. The buffer `_s` is
the function from an offset to the byte stored there; `_s[_n] = ...` updates
it at `n`. Returns the buffer after the call and the events. -/
def showSequence (s : Nat → Nat) (n seed0 temp0 : Nat) (adc : Nat → Nat) (dt : Nat → Nat) :
    (Nat → Nat) × List Event :=
  let r := calculateNewRandom seed0 temp0 adc
  let s1 := Function.update s n r.1
  (s1, r.2 ++ Event.setPinsAsOutputs :: showSequenceLoop s1 n dt (n + 1) 0
    ++ [Event.setPinsAsInputs])

/-- The pin writes among a list of events, as (channel, level) pairs. -/
def writes : List Event → List (Nat × PinState)
  | [] => []
  | Event.HAL_GPIO_WritePin ch level :: es => (ch, level) :: writes es
  | _ :: es => writes es

/-- The pin writes of one blink per listed channel, in order: for each
channel a RESET write followed by a SET write. -/
def blinks : List Nat → List (Nat × PinState)
  | [] => []
  | ch :: chs => (ch, PinState.GPIO_PIN_RESET) :: (ch, PinState.GPIO_PIN_SET) :: blinks chs

/-- The lengths of the `HAL_Delay` calls among a list of events, in order. -/
def delays : List Event → List Nat
  | [] => []
  | Event.HAL_Delay ms :: es => ms :: delays es
  | _ :: es => delays es

/-! ## Buttons (`getButtons`, game.c:196-206) -/

/-- Levels of the four button lines at one sampling instant, `l0` to `l3` for
channels 0 to 3. The lines are pulled up: `GPIO_PIN_RESET` is a pressed
button. A stream of reads is a list of these, one element per read: a call of
`getButtons` (its four `HAL_GPIO_ReadPin` calls sample the same element) or
the single `HAL_GPIO_ReadPin` of the debounce re-read. -/
structure Pins where
  l0 : PinState
  l1 : PinState
  l2 : PinState
  l3 : PinState
  deriving DecidableEq, Repr

/-- Sample `HAL_GPIO_ReadPin(portList[i], pinList[i])`. Every call in the game
code has `i < 4`; the value for a larger index is never used. -/
def HAL_GPIO_ReadPin (p : Pins) (i : Nat) : PinState :=
  match i with
  | 0 => p.l0
  | 1 => p.l1
  | 2 => p.l2
  | 3 => p.l3
  | _ => PinState.GPIO_PIN_SET

/-- Numeric value of a pin level (`GPIO_PIN_RESET = 0`, `GPIO_PIN_SET = 1`). -/
def PinState.toNat : PinState → Nat
  | PinState.GPIO_PIN_RESET => 0
  | PinState.GPIO_PIN_SET => 1

/-- C logical negation `!x`. -/
def lnot (x : Nat) : Nat := if x = 0 then 1 else 0

/-- The loop of `getButtons` (game.c:199-202) with `todo` passes left at index
`i`, `b` being the `uint8_t _buttons` built so far. -/
def getButtonsLoop (p : Pins) : Nat → Nat → Nat → Nat
  | 0, _, b => b
  | todo + 1, i, b =>
    getButtonsLoop p todo (i + 1) ((b ||| (lnot (HAL_GPIO_ReadPin p i).toNat <<< i)) % 256)

/-- Model of `getButtons`: the 4-bit mask of pressed buttons. -/
def getButtons (p : Pins) : Nat :=
  getButtonsLoop p 4 0 0 &&& 0x0f

/-! ## Input (`getKeys`, game.c:163-187) -/

/-- The scan `for (i = ...; i < 4; i++) if (_b & (1 << i)) break;`
(game.c:173-176) with `todo` passes left at index `i`; returns the value of `i`
after the loop. -/
def scanLoop (b : Nat) : Nat → Nat → Nat
  | 0, i => i
  | todo + 1, i => if b &&& (1 <<< i) ≠ 0 then i else scanLoop b todo (i + 1)

/-- Where `getKeys` is waiting for its next read. -/
inductive KeysPc
  | poll
  | debounce (i : Nat)
  | release (i : Nat)
  deriving DecidableEq, Repr

/-- State of a running `getKeys`: the `uint8_t` match count `n`, the point it
is waiting at, the milliseconds spent in `HAL_Delay` so far and, as a ghost
field, the confirmed presses so far (a press is confirmed once it has passed
the debounce re-read and has been released). -/
structure KeysState where
  n : Nat
  pc : KeysPc
  ms : Nat
  presses : List Nat
  deriving DecidableEq, Repr

/-- Effect of one read on a running `getKeys`. -/
inductive KeysStep
  | next (st : KeysState)
  | ret (v : Nat) (st : KeysState)
  deriving DecidableEq, Repr

/-- The test `while (n <= steps)` (game.c:168): poll again, or fall out of
the loop and `return 1`. -/
def loopTest (steps : Nat) (st : KeysState) : KeysStep :=
  if st.n ≤ steps then KeysStep.next { st with pc := KeysPc.poll } else KeysStep.ret 1 st

/-- What `getKeys`, waiting in state `st`, does with the pin levels `r` of its
next read, up to the read after that.
* `poll` (game.c:169-177): `_b = getButtons()`; zero polls again, otherwise the
  lowest set bit is the candidate and `HAL_Delay(25)` runs.
* `debounce i` (game.c:178): the re-read of channel `i`; not pressed goes back
  to the loop test.
* `release i` (game.c:179-183): `while (getButtons());`, then the comparison
  with `keys[n]`, `return 0` or `n++` and the loop test. -/
def getKeysStep (keys : Nat → Nat) (steps : Nat) (st : KeysState) (r : Pins) : KeysStep :=
  match st.pc with
  | KeysPc.poll =>
    if getButtons r = 0 then KeysStep.next st
    else KeysStep.next
      { st with pc := KeysPc.debounce (scanLoop (getButtons r) 4 0), ms := st.ms + 25 }
  | KeysPc.debounce i =>
    if HAL_GPIO_ReadPin r i = PinState.GPIO_PIN_RESET then
      KeysStep.next { st with pc := KeysPc.release i }
    else loopTest steps st
  | KeysPc.release i =>
    if getButtons r ≠ 0 then KeysStep.next st
    else if keys st.n ≠ i then KeysStep.ret 0 { st with presses := st.presses ++ [i] }
    else loopTest steps { st with n := (st.n + 1) % 256, presses := st.presses ++ [i] }

/-- Result of running `getKeys` over a finite stream of reads: it is still
waiting for a read in state `st`, or it has returned `v` leaving `rest`
unread. -/
inductive KeysResult
  | reading (st : KeysState)
  | returned (v : Nat) (st : KeysState) (rest : List Pins)
  deriving DecidableEq, Repr

/-- Run `getKeys` from state `st` over the reads `rs`, one element per read.
`HAL_Delay` only lets time pass: the read after it is the next element. -/
def getKeysFrom (keys : Nat → Nat) (steps : Nat) : KeysState → List Pins → KeysResult
  | st, [] => KeysResult.reading st
  | st, r :: rs =>
    match getKeysStep keys steps st r with
    | KeysStep.next st1 => getKeysFrom keys steps st1 rs
    | KeysStep.ret v st1 => KeysResult.returned v st1 rs

/-- Model of `getKeys(keys, steps, ...)` over the stream of reads `rs`: `n = 0`
and the first loop test (always passed, `0 <= steps`). -/
def getKeys (keys : Nat → Nat) (steps : Nat) (rs : List Pins) : KeysResult :=
  match loopTest steps { n := 0, pc := KeysPc.poll, ms := 0, presses := [] } with
  | KeysStep.next st => getKeysFrom keys steps st rs
  | KeysStep.ret v st => KeysResult.returned v st rs

/-- Return value, if `getKeys` has returned. -/
def KeysResult.value : KeysResult → Option Nat
  | KeysResult.reading _ => none
  | KeysResult.returned v _ _ => some v

/-- State at the end of the run. -/
def KeysResult.state : KeysResult → KeysState
  | KeysResult.reading st => st
  | KeysResult.returned _ st _ => st

/-- Reads left unread at the end of the run. -/
def KeysResult.unread : KeysResult → List Pins
  | KeysResult.reading _ => []
  | KeysResult.returned _ _ rest => rest

/-- All four buttons released. -/
def released : Pins :=
  { l0 := PinState.GPIO_PIN_SET, l1 := PinState.GPIO_PIN_SET,
    l2 := PinState.GPIO_PIN_SET, l3 := PinState.GPIO_PIN_SET }

/-- Exactly button `c` pressed (none for `c ≥ 4`). -/
def pressed (c : Nat) : Pins :=
  match c with
  | 0 => { released with l0 := PinState.GPIO_PIN_RESET }
  | 1 => { released with l1 := PinState.GPIO_PIN_RESET }
  | 2 => { released with l2 := PinState.GPIO_PIN_RESET }
  | 3 => { released with l3 := PinState.GPIO_PIN_RESET }
  | _ => released

/-- Reads of a player who presses button `c`, holds it over the debounce
re-read and lets go. -/
def press (c : Nat) : List Pins := [pressed c, pressed c, released]

/-- Reads of a player who enters `keys[i], keys[i+1], ...`, `todo` presses. -/
def playFrom (keys : Nat → Nat) : Nat → Nat → List Pins
  | 0, _ => []
  | todo + 1, i => press (keys i) ++ playFrom keys todo (i + 1)

/-- The entries `keys[0], ..., keys[steps]`. -/
def expected (keys : Nat → Nat) (steps : Nat) : List Nat :=
  (List.range (steps + 1)).map keys

/-! ## Score (`showResult`, game.c:241-269) -/

/-- The loop `for (i = ...; i < _blinks; i++)` of `showResult` with `todo`
passes left: one blink of channel `ch` per pass. -/
def blinkLoop (ch : Nat) : Nat → List Event
  | 0 => []
  | todo + 1 =>
    Event.HAL_GPIO_WritePin ch PinState.GPIO_PIN_RESET ::
    Event.HAL_Delay SCORE_BLINK_ON ::
    Event.HAL_GPIO_WritePin ch PinState.GPIO_PIN_SET ::
    Event.HAL_Delay SCORE_BLINK_OFF ::
    blinkLoop ch todo

/-- Model of `showResult(_r, ...)` for a `uint8_t` score `r`. -/
def showResult (r : Nat) : List Event :=
  Event.setPinsAsOutputs ::
    (blinkLoop 2 (r / 100) ++ blinkLoop 1 (r / 10 % 10) ++ blinkLoop 0 (r % 10))
    ++ [Event.setPinsAsInputs]

/-! ## Main loop (`main`, main.c:125-148) -/

/-- Which `while (1)` of `main` is running: the game loop (main.c:125) or the
loop of the final `else` branch (main.c:142). -/
inductive MainPc
  | game
  | lockout
  deriving DecidableEq, Repr

/-- The globals `steps` and `keys` and the loop `main` is in. -/
structure MainState where
  steps : Nat
  keys : Nat → Nat
  pc : MainPc

/-- What the hardware supplies during one pass of the loop: the entry values
of the locals of `calculateNewRandom`, the analog samples and the button
reads. -/
structure Env where
  seed0 : Nat
  temp0 : Nat
  adc : Nat → Nat
  reads : List Pins

/-- The calls `main` makes, with their `uint8_t` arguments; a call of
`showSequence` is recorded with the events it produced. -/
inductive Call
  | showSequence (n : Nat) (events : List Event)
  | getKeys (n : Nat)
  | HAL_Delay (ms : Nat)
  | showFailAnimation
  | showResult (r : Nat)
  | showStartAnimation
  deriving DecidableEq, Repr

/-- One pass of the running `while (1)` of `main`. Returns the calls made and
the state after the pass, or no state when `getKeys` has not returned on the
reads supplied. -/
def mainIter (st : MainState) (env : Env) : List Call × Option MainState :=
  match st.pc with
  | MainPc.game =>
    if st.steps < MAX_STEPS then
      let sq := showSequence st.keys st.steps env.seed0 env.temp0 env.adc delayTimes
      match getKeys sq.1 st.steps env.reads with
      | KeysResult.reading _ => ([Call.showSequence st.steps sq.2, Call.getKeys st.steps], none)
      | KeysResult.returned v _ _ =>
        if v ≠ 0 then
          ([Call.showSequence st.steps sq.2, Call.getKeys st.steps, Call.HAL_Delay 500],
            some { steps := (st.steps + 1) % 256, keys := sq.1, pc := MainPc.game })
        else
          ([Call.showSequence st.steps sq.2, Call.getKeys st.steps, Call.HAL_Delay 500,
            Call.showFailAnimation, Call.HAL_Delay 500, Call.showResult st.steps,
            Call.HAL_Delay 500, Call.showStartAnimation],
            some { steps := 0, keys := sq.1, pc := MainPc.game })
    else
      ([Call.showStartAnimation], some { st with steps := 0, pc := MainPc.lockout })
  | MainPc.lockout =>
    ([Call.showStartAnimation], some { st with steps := 0 })

/-- Successive passes of the loop, one per element of `envs`, stopping where
`getKeys` does not return. -/
def mainRun : MainState → List Env → List Call × Option MainState
  | st, [] => ([], some st)
  | st, e :: es =>
    match mainIter st e with
    | (cs, none) => (cs, none)
    | (cs, some st1) => (cs ++ (mainRun st1 es).1, (mainRun st1 es).2)

/-- State on entry to the loop: `steps = 0` and the zero-initialised `keys`. -/
def mainInit : MainState :=
  { steps := 0, keys := fun _ => 0, pc := MainPc.game }

/-- What the hardware supplies on a pass the player wins from state `st`:
zero samples, and the reads of a player entering the sequence shown. -/
def winEnv (st : MainState) : Env :=
  { seed0 := 0, temp0 := 0, adc := fun _ => 0,
    reads := playFrom (showSequence st.keys st.steps 0 0 (fun _ => 0) delayTimes).1
      (st.steps + 1) 0 }

/-! ## Invariants of `getKeys` -/

/-- Invariant of a running `getKeys`: it is inside the loop (`n <= steps`) and
the confirmed presses so far are `keys[0], ..., keys[n-1]`. -/
def KeysInv (keys : Nat → Nat) (steps : Nat) (st : KeysState) : Prop :=
  st.n ≤ steps ∧ st.presses = (List.range st.n).map keys

/-- What holds of a run of `getKeys` at its end: the invariant while it is
still reading; after `return 1` the confirmed presses are `keys[0..steps]`;
after `return 0` they are `keys[0..m)` followed by one press other than
`keys[m]`, for some `m <= steps`. -/
def ResultInv (keys : Nat → Nat) (steps : Nat) : KeysResult → Prop
  | KeysResult.reading st => KeysInv keys steps st
  | KeysResult.returned v st _ =>
    (v = 1 ∧ st.presses = expected keys steps) ∨
    (v = 0 ∧ ∃ m p, m ≤ steps ∧ p ≠ keys m ∧ st.presses = (List.range m).map keys ++ [p])

/-- State of `getKeys` on entry to the loop. -/
def keysInit : KeysState :=
  { n := 0, pc := KeysPc.poll, ms := 0, presses := [] }

/-! ## Theorems: random generator -/

theorem and_three_lt (x : Nat) : x &&& 3 < 4 :=
  Nat.lt_succ_of_le Nat.and_le_right

/-- C3: for all samples and every entry value of `seed` (and of `temp`),
`calculateNewRandom` returns a value in {0,1,2,3}, and the entry `showSequence`
stores at index `k` of the buffer is that value, a channel index below 4. -/
theorem calculateNewRandom_range (seed0 temp0 : Nat) (adc : Nat → Nat)
    (s : Nat → Nat) (k : Nat) (dt : Nat → Nat) :
    (calculateNewRandom seed0 temp0 adc).1 < 4 ∧
    (showSequence s k seed0 temp0 adc dt).1 k = (calculateNewRandom seed0 temp0 adc).1 ∧
    (showSequence s k seed0 temp0 adc dt).1 k < 4 := by
  have h : (calculateNewRandom seed0 temp0 adc).1 < 4 := and_three_lt _
  refine ⟨h, ?_, ?_⟩
  · simp [showSequence]
  · simpa [showSequence] using h

/-- C2: fed the same 25 samples (all zero), `calculateNewRandom` returns 3 when
`seed` holds 0 on entry and 1 when it holds 2: the digit is not determined by
the samples alone. -/
theorem calculateNewRandom_seed_dependent :
    (calculateNewRandom 0 0 (fun _ => 0)).1 = 3 ∧
    (calculateNewRandom 2 0 (fun _ => 0)).1 = 1 := by
  constructor
  · set_option maxRecDepth 100000 in rfl
  · set_option maxRecDepth 100000 in rfl

theorem randomBody_temp (i sample seed t0 t1 : Nat) (h : i ≤ 22) :
    randomBody i sample seed t0 = randomBody i sample seed t1 := by
  simp [randomBody, Nat.not_lt.mpr h]

theorem randomLoop_succ (adc : Nat → Nat) (todo i seed temp : Nat) :
    randomLoop adc (todo + 1) i seed temp =
      ((randomLoop adc todo (i + 1) (randomBody i (adc i) seed temp).1
          (randomBody i (adc i) seed temp).2.1).1,
       (randomLoop adc todo (i + 1) (randomBody i (adc i) seed temp).1
          (randomBody i (adc i) seed temp).2.1).2.1,
       (randomBody i (adc i) seed temp).2.2 ++
        (randomLoop adc todo (i + 1) (randomBody i (adc i) seed temp).1
          (randomBody i (adc i) seed temp).2.1).2.2) :=
  rfl

theorem randomLoop_temp (adc : Nat → Nat) (todo seed t0 t1 : Nat) :
    randomLoop adc (todo + 1) 0 seed t0 = randomLoop adc (todo + 1) 0 seed t1 := by
  rw [randomLoop_succ, randomLoop_succ, randomBody_temp 0 (adc 0) seed t0 t1 (by omega)]

/-- The entry value of `temp` is never read: neither the digit nor the events
of `calculateNewRandom` depend on it. -/
theorem calculateNewRandom_temp_irrelevant (seed0 temp0 temp1 : Nat) (adc : Nat → Nat) :
    calculateNewRandom seed0 temp0 adc = calculateNewRandom seed0 temp1 adc := by
  have h : randomLoop adc 25 0 seed0 temp0 = randomLoop adc 25 0 seed0 temp1 :=
    randomLoop_temp adc 24 seed0 temp0 temp1
  unfold calculateNewRandom
  rw [h]

/-- C9 (as stated) fails: with all samples zero and `seed` zero on entry the
delays of one call are the 1 ms settle delay and two jitter delays, not
three. -/
theorem calculateNewRandom_jitter_not_three :
    delays (calculateNewRandom 0 0 (fun _ => 0)).2 = [1, 0, 2] ∧
    ¬ ∃ j1 j2 j3, delays (calculateNewRandom 0 0 (fun _ => 0)).2 = [1, j1, j2, j3] := by
  have h : delays (calculateNewRandom 0 0 (fun _ => 0)).2 = [1, 0, 2] := by rfl
  refine ⟨h, ?_⟩
  rintro ⟨j1, j2, j3, h3⟩
  rw [h] at h3
  simp at h3

/-- C9 (amended): after the settle delay the first 23 passes of the loop
(indices 0..22) sample without any delay, and each of the last two passes
(indices 23 and 24) first delays by `temp & 3`, at most 3 ms, `temp` being
the diffusion byte left by the pass before. -/
theorem calculateNewRandom_jitter (seed0 temp0 : Nat) (adc : Nat → Nat) :
    (calculateNewRandom seed0 temp0 adc).2 =
      Event.setPinsAsInputs :: Event.HAL_Delay 1 ::
        ((List.range 23).map (fun i => Event.HAL_ADC_GetValue (adc i)) ++
          [Event.HAL_Delay ((randomLoop adc 23 0 seed0 temp0).2.1 &&& 3),
           Event.HAL_ADC_GetValue (adc 23),
           Event.HAL_Delay ((randomLoop adc 24 0 seed0 temp0).2.1 &&& 3),
           Event.HAL_ADC_GetValue (adc 24)]) ∧
    (randomLoop adc 23 0 seed0 temp0).2.1 &&& 3 ≤ 3 ∧
    (randomLoop adc 24 0 seed0 temp0).2.1 &&& 3 ≤ 3 := by
  refine ⟨?_, Nat.and_le_right, Nat.and_le_right⟩
  rfl

/-! ## Theorems: playback and score -/

theorem writes_nil : writes [] = [] := rfl

theorem writes_write (ch : Nat) (level : PinState) (es : List Event) :
    writes (Event.HAL_GPIO_WritePin ch level :: es) = (ch, level) :: writes es := rfl

theorem writes_delay (ms : Nat) (es : List Event) :
    writes (Event.HAL_Delay ms :: es) = writes es := rfl

theorem writes_sample (v : Nat) (es : List Event) :
    writes (Event.HAL_ADC_GetValue v :: es) = writes es := rfl

theorem writes_inputs (es : List Event) :
    writes (Event.setPinsAsInputs :: es) = writes es := rfl

theorem writes_outputs (es : List Event) :
    writes (Event.setPinsAsOutputs :: es) = writes es := rfl

theorem writes_append (a b : List Event) : writes (a ++ b) = writes a ++ writes b := by
  induction a with
  | nil => rfl
  | cons e es ih =>
    cases e <;>
      simp [writes_write, writes_delay, writes_sample, writes_inputs, writes_outputs, ih]

theorem blinks_append (a b : List Nat) : blinks (a ++ b) = blinks a ++ blinks b := by
  induction a with
  | nil => rfl
  | cons c cs ih => simp [blinks, ih]

theorem mem_blinks (w : Nat × PinState) (chs : List Nat) (h : w ∈ blinks chs) : w.1 ∈ chs := by
  induction chs with
  | nil => simp [blinks] at h
  | cons c cs ih =>
    simp only [blinks, List.mem_cons] at h
    rcases h with h | h | h
    · simp [h]
    · simp [h]
    · exact List.mem_cons_of_mem _ (ih h)

theorem writes_randomBody (i sample seed temp : Nat) :
    writes (randomBody i sample seed temp).2.2 = [] := by
  unfold randomBody
  by_cases h : i > 22 <;> simp [h, writes_delay, writes_sample, writes_nil]

theorem writes_randomLoop (adc : Nat → Nat) (todo i seed temp : Nat) :
    writes (randomLoop adc todo i seed temp).2.2 = [] := by
  induction todo generalizing i seed temp with
  | zero => rfl
  | succ t ih => rw [randomLoop_succ]; simp [writes_append, writes_randomBody, ih]

theorem writes_calculateNewRandom (seed0 temp0 : Nat) (adc : Nat → Nat) :
    writes (calculateNewRandom seed0 temp0 adc).2 = [] := by
  simp [calculateNewRandom, writes_inputs, writes_delay, writes_randomLoop]

theorem writes_showSequenceLoop (s : Nat → Nat) (n : Nat) (dt : Nat → Nat) (todo i : Nat) :
    writes (showSequenceLoop s n dt todo i) =
      blinks ((List.range todo).map (fun j => s (i + j))) := by
  induction todo generalizing i with
  | zero => rfl
  | succ t ih =>
    rw [List.range_succ_eq_map]
    simp only [showSequenceLoop, writes_write, writes_delay, ih, List.map_cons, List.map_map,
      blinks, Nat.add_zero]
    congr 3
    apply List.map_congr_left
    intro j _
    simp only [Function.comp_apply]
    congr 1
    omega

theorem writes_blinkLoop (ch todo : Nat) :
    writes (blinkLoop ch todo) = blinks (List.replicate todo ch) := by
  induction todo with
  | zero => rfl
  | succ t ih =>
    simp [blinkLoop, writes_write, writes_delay, ih, List.replicate_succ, blinks]

/-- C4: for every round `k < MAX_STEPS` and every buffer `s`,
`showSequence(s, k, ...)` stores the drawn digit at index `k`, leaves the
entries below `k` unchanged, and its pin writes are exactly one blink (RESET
then SET) per index `i = 0..k` in increasing order, `k + 1` blinks in all, the
`i`-th on channel `_s[i]` of the buffer after the store. -/
theorem showSequence_playback (s : Nat → Nat) (k seed0 temp0 : Nat) (adc dt : Nat → Nat)
    (_hk : k < MAX_STEPS) :
    (showSequence s k seed0 temp0 adc dt).1 k = (calculateNewRandom seed0 temp0 adc).1 ∧
    (∀ i, i < k → (showSequence s k seed0 temp0 adc dt).1 i = s i) ∧
    writes (showSequence s k seed0 temp0 adc dt).2 =
      blinks ((List.range (k + 1)).map (showSequence s k seed0 temp0 adc dt).1) ∧
    ((List.range (k + 1)).map (showSequence s k seed0 temp0 adc dt).1).length = k + 1 := by
  refine ⟨by simp [showSequence], ?_, ?_, by simp⟩
  · intro i hi
    have : i ≠ k := Nat.ne_of_lt hi
    simp [showSequence, Function.update_noteq this]
  · unfold showSequence
    simp only [writes_append, writes_calculateNewRandom, writes_outputs, writes_inputs,
      writes_nil, writes_showSequenceLoop, List.nil_append, List.append_nil]
    congr 1
    apply List.map_congr_left
    intro j _
    rw [Nat.zero_add]

theorem showSequence_playback_witness :
    (showSequence (fun _ => 1) 2 0 0 (fun _ => 0) delayTimes).1 2 = 3 ∧
    writes (showSequence (fun _ => 1) 2 0 0 (fun _ => 0) delayTimes).2 = blinks [1, 1, 3] := by
  have h := showSequence_playback (fun _ => 1) 2 0 0 (fun _ => 0) delayTimes (by decide)
  have hd : (calculateNewRandom 0 0 (fun _ => 0)).1 = 3 := by
    set_option maxRecDepth 100000 in decide
  have h2 : (showSequence (fun _ => 1) 2 0 0 (fun _ => 0) delayTimes).1 2 = 3 := by
    rw [h.1, hd]
  refine ⟨h2, ?_⟩
  rw [h.2.2.1]
  have h0 := h.2.1 0 (by decide)
  have h1 := h.2.1 1 (by decide)
  simp [List.range_succ, h0, h1, h2]

/-- C5: for every score `r` in 0..255 the pin writes of `showResult(r)` are
`h` blinks on channel 2, then `t` blinks on channel 1, then `u` blinks on
channel 0, where `t ≤ 9`, `u ≤ 9` and `100*h + 10*t + u = r`; no write is on
channel 3; `r = 0` gives no write at all and `r = 47` gives 0, 4 and 7
blinks. -/
theorem showResult_digits (r : Nat) (_hr : r < 256) :
    (∃ h t u, t ≤ 9 ∧ u ≤ 9 ∧ 100 * h + 10 * t + u = r ∧
      writes (showResult r) =
        blinks (List.replicate h 2 ++ List.replicate t 1 ++ List.replicate u 0)) ∧
    (∀ w ∈ writes (showResult r), w.1 ≠ 3) ∧
    writes (showResult 0) = [] ∧
    writes (showResult 47) =
      blinks (List.replicate 0 2 ++ List.replicate 4 1 ++ List.replicate 7 0) := by
  have key : ∀ q, writes (showResult q) =
      blinks (List.replicate (q / 100) 2 ++ List.replicate (q / 10 % 10) 1 ++
        List.replicate (q % 10) 0) := by
    intro q
    unfold showResult
    simp only [writes_outputs, writes_inputs, writes_nil, writes_append, writes_blinkLoop,
      blinks_append, List.append_nil, List.append_assoc]
  refine ⟨⟨r / 100, r / 10 % 10, r % 10, by omega, by omega, by omega, key r⟩, ?_, ?_, ?_⟩
  · intro w hw
    rw [key r] at hw
    have hm := mem_blinks w _ hw
    simp only [List.mem_append, List.mem_replicate] at hm
    omega
  · rw [key 0]; rfl
  · rw [key 47]

theorem showResult_digits_witness :
    ∃ h t u, t ≤ 9 ∧ u ≤ 9 ∧ 100 * h + 10 * t + u = 123 ∧
      writes (showResult 123) =
        blinks (List.replicate h 2 ++ List.replicate t 1 ++ List.replicate u 0) :=
  (showResult_digits 123 (by decide)).1

/-! ## Theorems: buttons -/

theorem getButtons_lt (p : Pins) : getButtons p < 16 := by
  rcases p with ⟨a, b, c, d⟩
  cases a <;> cases b <;> cases c <;> cases d <;> decide

theorem getButtons_eq_zero (p : Pins) : getButtons p = 0 ↔ p = released := by
  rcases p with ⟨a, b, c, d⟩
  cases a <;> cases b <;> cases c <;> cases d <;> decide

/-- The candidate channel of a non-zero mask is below 4, reads pressed in the
sample the mask was built from, and no lower channel does. -/
theorem scanLoop_lowest (p : Pins) (h : getButtons p ≠ 0) :
    scanLoop (getButtons p) 4 0 < 4 ∧
    HAL_GPIO_ReadPin p (scanLoop (getButtons p) 4 0) = PinState.GPIO_PIN_RESET ∧
    ∀ j, j < scanLoop (getButtons p) 4 0 → HAL_GPIO_ReadPin p j = PinState.GPIO_PIN_SET := by
  rcases p with ⟨a, b, c, d⟩
  cases a <;> cases b <;> cases c <;> cases d <;>
    first
      | exact absurd rfl h
      | (refine ⟨by decide, by decide, ?_⟩
         intro j hj
         have hj4 : j < 4 := Nat.lt_of_lt_of_le hj (by decide)
         interval_cases j <;> first | rfl | exact absurd hj (by decide))

theorem getButtons_pressed (c : Nat) (hc : c < 4) :
    getButtons (pressed c) ≠ 0 ∧ scanLoop (getButtons (pressed c)) 4 0 = c ∧
    HAL_GPIO_ReadPin (pressed c) c = PinState.GPIO_PIN_RESET := by
  interval_cases c <;> decide

theorem getButtons_released : getButtons released = 0 := by decide

/-! ## Theorems: input -/

theorem getKeys_eq (keys : Nat → Nat) (steps : Nat) (rs : List Pins) :
    getKeys keys steps rs = getKeysFrom keys steps keysInit rs := by
  simp [getKeys, loopTest, keysInit]

theorem getKeysFrom_nil (keys : Nat → Nat) (steps : Nat) (st : KeysState) :
    getKeysFrom keys steps st [] = KeysResult.reading st := rfl

theorem getKeysFrom_cons_next (keys : Nat → Nat) (steps : Nat) (st st1 : KeysState) (r : Pins)
    (rs : List Pins) (h : getKeysStep keys steps st r = KeysStep.next st1) :
    getKeysFrom keys steps st (r :: rs) = getKeysFrom keys steps st1 rs := by
  simp [getKeysFrom, h]

theorem getKeysFrom_cons_ret (keys : Nat → Nat) (steps : Nat) (st st1 : KeysState) (v : Nat)
    (r : Pins) (rs : List Pins) (h : getKeysStep keys steps st r = KeysStep.ret v st1) :
    getKeysFrom keys steps st (r :: rs) = KeysResult.returned v st1 rs := by
  simp [getKeysFrom, h]

/-- A run that is still reading after `a` continues on `b` from where it
stands. -/
theorem getKeysFrom_append (keys : Nat → Nat) (steps : Nat) (a b : List Pins)
    (st st1 : KeysState) (h : getKeysFrom keys steps st a = KeysResult.reading st1) :
    getKeysFrom keys steps st (a ++ b) = getKeysFrom keys steps st1 b := by
  induction a generalizing st with
  | nil =>
    rw [getKeysFrom_nil] at h
    cases h
    rfl
  | cons r rs ih =>
    cases hs : getKeysStep keys steps st r with
    | next st2 =>
      rw [getKeysFrom_cons_next keys steps st st2 r rs hs] at h
      rw [List.cons_append, getKeysFrom_cons_next keys steps st st2 r _ hs]
      exact ih st2 h
    | ret v st2 =>
      rw [getKeysFrom_cons_ret keys steps st st2 v r rs hs] at h
      cases h

/-- A run that has returned is not affected by the reads that follow: they
stay unread. -/
theorem getKeysFrom_append_returned (keys : Nat → Nat) (steps : Nat) (a b : List Pins)
    (st st1 : KeysState) (v : Nat) (rest : List Pins)
    (h : getKeysFrom keys steps st a = KeysResult.returned v st1 rest) :
    getKeysFrom keys steps st (a ++ b) = KeysResult.returned v st1 (rest ++ b) := by
  induction a generalizing st with
  | nil =>
    rw [getKeysFrom_nil] at h
    cases h
  | cons r rs ih =>
    cases hs : getKeysStep keys steps st r with
    | next st2 =>
      rw [getKeysFrom_cons_next keys steps st st2 r rs hs] at h
      rw [List.cons_append, getKeysFrom_cons_next keys steps st st2 r _ hs]
      exact ih st2 h
    | ret w st2 =>
      rw [getKeysFrom_cons_ret keys steps st st2 w r rs hs] at h
      rw [List.cons_append, getKeysFrom_cons_ret keys steps st st2 w r _ hs]
      cases h
      rfl

/-- Every step that stays in the function leaves `n <= steps`. -/
theorem getKeysStep_le (keys : Nat → Nat) (steps : Nat) (st st1 : KeysState) (r : Pins)
    (hn : st.n ≤ steps) (h : getKeysStep keys steps st r = KeysStep.next st1) :
    st1.n ≤ steps := by
  unfold getKeysStep at h
  cases hpc : st.pc with
  | poll =>
    rw [hpc] at h
    simp only at h
    split_ifs at h <;> cases h <;> exact hn
  | debounce i =>
    rw [hpc] at h
    simp only [loopTest] at h
    split_ifs at h <;> cases h <;> exact hn
  | release i =>
    rw [hpc] at h
    simp only [loopTest] at h
    split_ifs at h with h1 h2 h3
    · cases h; exact hn
    · cases h; exact h3

theorem getKeysFrom_le (keys : Nat → Nat) (steps : Nat) (rs : List Pins) (st st1 : KeysState)
    (hn : st.n ≤ steps) (h : getKeysFrom keys steps st rs = KeysResult.reading st1) :
    st1.n ≤ steps := by
  induction rs generalizing st with
  | nil =>
    rw [getKeysFrom_nil] at h
    cases h
    exact hn
  | cons r rs ih =>
    cases hs : getKeysStep keys steps st r with
    | next st2 =>
      rw [getKeysFrom_cons_next keys steps st st2 r rs hs] at h
      exact ih st2 (getKeysStep_le keys steps st st2 r hn hs) h
    | ret v st2 =>
      rw [getKeysFrom_cons_ret keys steps st st2 v r rs hs] at h
      cases h

theorem getKeys_le (keys : Nat → Nat) (steps : Nat) (rs : List Pins) (st : KeysState)
    (h : getKeys keys steps rs = KeysResult.reading st) : st.n ≤ steps := by
  rw [getKeys_eq] at h
  exact getKeysFrom_le keys steps rs keysInit st (Nat.zero_le _) h

theorem getKeysStep_glitch (keys : Nat → Nat) (steps : Nat) (st : KeysState) (r1 r2 : Pins)
    (hpc : st.pc = KeysPc.poll) (hn : st.n ≤ steps) (h1 : getButtons r1 ≠ 0)
    (h2 : HAL_GPIO_ReadPin r2 (scanLoop (getButtons r1) 4 0) ≠ PinState.GPIO_PIN_RESET)
    (rs : List Pins) :
    getKeysFrom keys steps st (r1 :: r2 :: rs) =
      getKeysFrom keys steps
        { n := st.n, pc := KeysPc.poll, ms := st.ms + 25, presses := st.presses } rs := by
  have e1 : getKeysStep keys steps st r1 = KeysStep.next
      { st with pc := KeysPc.debounce (scanLoop (getButtons r1) 4 0), ms := st.ms + 25 } := by
    simp [getKeysStep, hpc, h1]
  have e2 : getKeysStep keys steps
      { st with pc := KeysPc.debounce (scanLoop (getButtons r1) 4 0), ms := st.ms + 25 } r2 =
      KeysStep.next { n := st.n, pc := KeysPc.poll, ms := st.ms + 25, presses := st.presses } := by
    simp [getKeysStep, h2, loopTest, hn]
  rw [getKeysFrom_cons_next keys steps _ _ r1 _ e1, getKeysFrom_cons_next keys steps _ _ r2 _ e2]

/-- C7: when `getKeys` is polling, a read with a non-zero mask whose lowest
set bit is `i`, followed by a re-read in which channel `i` is not pressed,
leaves it polling, still inside the function (nothing returned), with `n` and
the confirmed presses unchanged; the state reached is the same whatever the
table `keys` holds, and the run goes on from it with the reads that follow. -/
theorem getKeys_debounce (keys : Nat → Nat) (steps : Nat) (pre : List Pins) (st : KeysState)
    (r1 r2 : Pins) (rs : List Pins)
    (hrun : getKeys keys steps pre = KeysResult.reading st) (hpc : st.pc = KeysPc.poll)
    (h1 : getButtons r1 ≠ 0)
    (h2 : HAL_GPIO_ReadPin r2 (scanLoop (getButtons r1) 4 0) ≠ PinState.GPIO_PIN_RESET) :
    getKeys keys steps (pre ++ [r1, r2]) = KeysResult.reading
      { n := st.n, pc := KeysPc.poll, ms := st.ms + 25, presses := st.presses } ∧
    (∀ keys2 : Nat → Nat, getKeysFrom keys2 steps st [r1, r2] = KeysResult.reading
      { n := st.n, pc := KeysPc.poll, ms := st.ms + 25, presses := st.presses }) ∧
    getKeys keys steps (pre ++ r1 :: r2 :: rs) = getKeysFrom keys steps
      { n := st.n, pc := KeysPc.poll, ms := st.ms + 25, presses := st.presses } rs := by
  have hn : st.n ≤ steps := getKeys_le keys steps pre st hrun
  rw [getKeys_eq] at hrun
  refine ⟨?_, ?_, ?_⟩
  · rw [getKeys_eq, getKeysFrom_append keys steps pre _ keysInit st hrun,
      getKeysStep_glitch keys steps st r1 r2 hpc hn h1 h2 []]
    rfl
  · intro keys2
    rw [getKeysStep_glitch keys2 steps st r1 r2 hpc hn h1 h2 []]
    rfl
  · rw [getKeys_eq, getKeysFrom_append keys steps pre _ keysInit st hrun,
      getKeysStep_glitch keys steps st r1 r2 hpc hn h1 h2 rs]

theorem getKeys_debounce_witness :
    getKeys (fun _ => 0) 5 ([released] ++ [pressed 2, released]) = KeysResult.reading
      { n := 0, pc := KeysPc.poll, ms := 0 + 25, presses := [] } :=
  (getKeys_debounce (fun _ => 0) 5 [released] keysInit (pressed 2) released []
    (by decide) rfl (by decide) (by decide)).1

theorem getKeysStep_held (keys : Nat → Nat) (steps : Nat) (st : KeysState) (r : Pins)
    (hn : st.n ≤ steps) (hr : getButtons r ≠ 0) :
    ∃ st1, getKeysStep keys steps st r = KeysStep.next st1 ∧ st1.n = st.n ∧
      st1.presses = st.presses := by
  unfold getKeysStep
  cases hpc : st.pc with
  | poll => simp [hr]
  | debounce i =>
    by_cases h : HAL_GPIO_ReadPin r i = PinState.GPIO_PIN_RESET <;> simp [h, loopTest, hn]
  | release i => simp [hr]

theorem getKeysFrom_held (keys : Nat → Nat) (steps : Nat) (held : List Pins) (st : KeysState)
    (hn : st.n ≤ steps) (hheld : ∀ r ∈ held, getButtons r ≠ 0) :
    ∃ st1, getKeysFrom keys steps st held = KeysResult.reading st1 ∧ st1.n = st.n ∧
      st1.presses = st.presses := by
  induction held generalizing st with
  | nil => exact ⟨st, rfl, rfl, rfl⟩
  | cons r rs ih =>
    obtain ⟨st1, hs, h1, h2⟩ :=
      getKeysStep_held keys steps st r hn (hheld r (List.mem_cons_self _ _))
    obtain ⟨st2, hrun, h3, h4⟩ :=
      ih st1 (h1 ▸ hn) (fun x hx => hheld x (List.mem_cons_of_mem _ hx))
    exact ⟨st2, by rw [getKeysFrom_cons_next keys steps st st1 r rs hs]; exact hrun,
      h3.trans h1, h4.trans h2⟩

theorem getKeysStep_increment (keys : Nat → Nat) (steps : Nat) (st st1 : KeysState) (r : Pins)
    (h : getKeysStep keys steps st r = KeysStep.next st1 ∨
      ∃ v, getKeysStep keys steps st r = KeysStep.ret v st1)
    (hne : st1.n ≠ st.n) : getButtons r = 0 := by
  by_contra hr
  apply hne
  unfold getKeysStep at h
  cases hpc : st.pc with
  | poll =>
    rw [hpc] at h
    simp only [hr, if_false] at h
    rcases h with h | ⟨v, h⟩ <;> cases h
    rfl
  | debounce i =>
    rw [hpc] at h
    simp only [loopTest] at h
    rcases h with h | ⟨v, h⟩ <;> split_ifs at h <;> cases h <;> rfl
  | release i =>
    rw [hpc] at h
    simp only [ne_eq, hr, not_false_eq_true, if_true] at h
    rcases h with h | ⟨v, h⟩ <;> cases h
    rfl

theorem getKeysStep_bound (keys : Nat → Nat) (steps : Nat) (sa : KeysState) (r : Pins) :
    (∀ sb, getKeysStep keys steps sa r = KeysStep.next sb →
      sb.n ≤ sa.n + 1 ∧ sb.presses.length ≤ sa.presses.length + 1) ∧
    (∀ v sb, getKeysStep keys steps sa r = KeysStep.ret v sb →
      sb.n ≤ sa.n + 1 ∧ sb.presses.length ≤ sa.presses.length + 1) := by
  have hmod : (sa.n + 1) % 256 ≤ sa.n + 1 := Nat.mod_le _ _
  unfold getKeysStep
  cases hpc : sa.pc with
  | poll =>
    constructor
    · intro sb h
      simp only at h
      split_ifs at h <;> cases h <;> simp
    · intro v sb h
      simp only at h
      split_ifs at h
  | debounce i =>
    constructor
    · intro sb h
      simp only [loopTest] at h
      split_ifs at h <;> cases h <;> simp
    · intro v sb h
      simp only [loopTest] at h
      split_ifs at h
      cases h
      simp
  | release i =>
    constructor
    · intro sb h
      simp only [loopTest] at h
      split_ifs at h <;> cases h <;> simp [hmod]
    · intro v sb h
      simp only [loopTest] at h
      split_ifs at h <;> cases h <;> simp [hmod]

/-- C8: every change of the match count `n` is made on a button read that
returned the all-released mask 0; so when `getKeys` has read `pre` and every
read of `held` after it has a non-zero mask (the buttons are never all
released), it is still reading after `held` with `n`, and the confirmed
presses, exactly as they were, however long `held` is; and whatever the one
read `r` after `held` is (the release, say), `n` and the number of confirmed
presses have then advanced by at most one. -/
theorem getKeys_release_gating (keys : Nat → Nat) (steps : Nat) (pre held : List Pins)
    (st : KeysState) (hrun : getKeys keys steps pre = KeysResult.reading st)
    (hheld : ∀ r ∈ held, getButtons r ≠ 0) :
    (∃ st1, getKeys keys steps (pre ++ held) = KeysResult.reading st1 ∧ st1.n = st.n ∧
      st1.presses = st.presses) ∧
    (∀ r : Pins, (getKeys keys steps (pre ++ held ++ [r])).state.n ≤ st.n + 1 ∧
      (getKeys keys steps (pre ++ held ++ [r])).state.presses.length ≤
        st.presses.length + 1) ∧
    (∀ (sa sb : KeysState) (r : Pins),
      (getKeysStep keys steps sa r = KeysStep.next sb ∨
        ∃ v, getKeysStep keys steps sa r = KeysStep.ret v sb) →
      sb.n ≠ sa.n → getButtons r = 0) := by
  have hn : st.n ≤ steps := getKeys_le keys steps pre st hrun
  rw [getKeys_eq] at hrun
  obtain ⟨st1, h1, h2, h3⟩ := getKeysFrom_held keys steps held st hn hheld
  have hall : getKeysFrom keys steps keysInit (pre ++ held) = KeysResult.reading st1 := by
    rw [getKeysFrom_append keys steps pre held keysInit st hrun]; exact h1
  refine ⟨⟨st1, by rw [getKeys_eq]; exact hall, h2, h3⟩, ?_,
    fun sa sb r h hne => getKeysStep_increment keys steps sa sb r h hne⟩
  intro r
  rw [getKeys_eq, getKeysFrom_append keys steps (pre ++ held) [r] keysInit st1 hall]
  have hb := getKeysStep_bound keys steps st1 r
  cases hs : getKeysStep keys steps st1 r with
  | next sb =>
    rw [getKeysFrom_cons_next keys steps st1 sb r [] hs, getKeysFrom_nil]
    have := hb.1 sb hs
    simp only [KeysResult.state]
    rw [← h2, ← h3]
    exact this
  | ret v sb =>
    rw [getKeysFrom_cons_ret keys steps st1 sb v r [] hs]
    have := hb.2 v sb hs
    simp only [KeysResult.state]
    rw [← h2, ← h3]
    exact this

theorem getKeys_release_gating_witness :
    ∃ st1, getKeys (fun _ => 1) 5
        (press 1 ++ [pressed 1, pressed 1, pressed 1, pressed 3, pressed 1]) =
        KeysResult.reading st1 ∧
      st1.n = 1 ∧ st1.presses = [1] :=
  (getKeys_release_gating (fun _ => 1) 5 (press 1)
    [pressed 1, pressed 1, pressed 1, pressed 3, pressed 1]
    { n := 1, pc := KeysPc.poll, ms := 25, presses := [1] } (by decide) (by decide)).1

/-! ### A full press -/

/-- From the polling state, the three reads of a clean press of channel `c`
lead to the comparison of `c` with `keys[n]`. -/
theorem getKeysFrom_press (keys : Nat → Nat) (steps : Nat) (st : KeysState) (c : Nat)
    (rs : List Pins) (hpc : st.pc = KeysPc.poll) (hc : c < 4) :
    getKeysFrom keys steps st (press c ++ rs) =
      match getKeysStep keys steps
          { st with pc := KeysPc.release c, ms := st.ms + 25 } released with
      | KeysStep.next st1 => getKeysFrom keys steps st1 rs
      | KeysStep.ret v st1 => KeysResult.returned v st1 rs := by
  obtain ⟨hb, hscan, hread⟩ := getButtons_pressed c hc
  have e1 : getKeysStep keys steps st (pressed c) = KeysStep.next
      { st with pc := KeysPc.debounce c, ms := st.ms + 25 } := by
    simp [getKeysStep, hpc, hb, hscan]
  have e2 : getKeysStep keys steps { st with pc := KeysPc.debounce c, ms := st.ms + 25 }
      (pressed c) = KeysStep.next { st with pc := KeysPc.release c, ms := st.ms + 25 } := by
    simp [getKeysStep, hread]
  show getKeysFrom keys steps st (pressed c :: pressed c :: released :: rs) = _
  rw [getKeysFrom_cons_next keys steps _ _ _ _ e1, getKeysFrom_cons_next keys steps _ _ _ _ e2]
  rfl

theorem getKeysFrom_press_wrong (keys : Nat → Nat) (steps : Nat) (st : KeysState) (c : Nat)
    (rs : List Pins) (hpc : st.pc = KeysPc.poll) (hc : c < 4) (hne : c ≠ keys st.n) :
    getKeysFrom keys steps st (press c ++ rs) = KeysResult.returned 0
      { n := st.n, pc := KeysPc.release c, ms := st.ms + 25, presses := st.presses ++ [c] }
      rs := by
  rw [getKeysFrom_press keys steps st c rs hpc hc]
  have : keys st.n ≠ c := fun h => hne h.symm
  simp [getKeysStep, getButtons_released, this]

theorem getKeysFrom_press_right (keys : Nat → Nat) (steps : Nat) (st : KeysState) (c : Nat)
    (rs : List Pins) (hpc : st.pc = KeysPc.poll) (hc : c < 4) (heq : c = keys st.n)
    (hnext : (st.n + 1) % 256 ≤ steps) :
    getKeysFrom keys steps st (press c ++ rs) = getKeysFrom keys steps
      { n := (st.n + 1) % 256, pc := KeysPc.poll, ms := st.ms + 25,
        presses := st.presses ++ [c] } rs := by
  rw [getKeysFrom_press keys steps st c rs hpc hc]
  simp [getKeysStep, getButtons_released, heq, loopTest, hnext]

theorem getKeysFrom_press_last (keys : Nat → Nat) (steps : Nat) (st : KeysState) (c : Nat)
    (rs : List Pins) (hpc : st.pc = KeysPc.poll) (hc : c < 4) (heq : c = keys st.n)
    (hlast : ¬ (st.n + 1) % 256 ≤ steps) :
    getKeysFrom keys steps st (press c ++ rs) = KeysResult.returned 1
      { n := (st.n + 1) % 256, pc := KeysPc.release c, ms := st.ms + 25,
        presses := st.presses ++ [c] } rs := by
  rw [getKeysFrom_press keys steps st c rs hpc hc]
  simp [getKeysStep, getButtons_released, heq, loopTest, hlast]

theorem playFrom_succ_end (keys : Nat → Nat) (m i : Nat) :
    playFrom keys (m + 1) i = playFrom keys m i ++ press (keys (i + m)) := by
  induction m generalizing i with
  | zero => simp [playFrom]
  | succ t ih =>
    have e : i + 1 + t = i + (t + 1) := by omega
    rw [playFrom, ih (i + 1), playFrom, List.append_assoc, e]

/-- Entering `keys[0..m)` with `m <= steps` leaves `getKeys` polling for the
next press with `n = m`. -/
theorem getKeysFrom_playFrom (keys : Nat → Nat) (steps m : Nat) (hsteps : steps < 256)
    (hm : m ≤ steps) (hkeys : ∀ i, i < m → keys i < 4) :
    getKeysFrom keys steps keysInit (playFrom keys m 0) = KeysResult.reading
      { n := m, pc := KeysPc.poll, ms := 25 * m, presses := (List.range m).map keys } := by
  induction m with
  | zero => rfl
  | succ t ih =>
    have h1 := ih (by omega) (fun i hi => hkeys i (by omega))
    rw [playFrom_succ_end, getKeysFrom_append keys steps _ _ keysInit _ h1, Nat.zero_add]
    have h2 := getKeysFrom_press_right keys steps
      { n := t, pc := KeysPc.poll, ms := 25 * t, presses := (List.range t).map keys }
      (keys t) [] rfl (hkeys t (by omega)) rfl
      (by show (t + 1) % 256 ≤ steps; rw [Nat.mod_eq_of_lt (by omega)]; exact hm)
    rw [List.append_nil] at h2
    rw [h2, getKeysFrom_nil]
    have e : (t + 1) % 256 = t + 1 := Nat.mod_eq_of_lt (by omega)
    simp only [e, List.range_succ, List.map_append, List.map_cons, List.map_nil, Nat.mul_succ]

/-! ### Acceptance -/

theorem getKeysStep_inv (keys : Nat → Nat) (steps : Nat) (hsteps : steps < 255)
    (st : KeysState) (r : Pins) (hinv : KeysInv keys steps st) :
    (∀ st1, getKeysStep keys steps st r = KeysStep.next st1 → KeysInv keys steps st1) ∧
    (∀ v st1, getKeysStep keys steps st r = KeysStep.ret v st1 →
      (v = 1 ∧ st1.presses = expected keys steps) ∨
      (v = 0 ∧ ∃ m p, m ≤ steps ∧ p ≠ keys m ∧
        st1.presses = (List.range m).map keys ++ [p])) := by
  obtain ⟨hn, hp⟩ := hinv
  have hmod : (st.n + 1) % 256 = st.n + 1 := Nat.mod_eq_of_lt (by omega)
  unfold getKeysStep
  cases hpc : st.pc with
  | poll =>
    constructor
    · intro st1 h
      simp only at h
      split_ifs at h <;> cases h <;> exact ⟨hn, hp⟩
    · intro v st1 h
      simp only at h
      split_ifs at h
  | debounce i =>
    constructor
    · intro st1 h
      simp only [loopTest] at h
      split_ifs at h <;> cases h <;> exact ⟨hn, hp⟩
    · intro v st1 h
      simp only [loopTest] at h
      split_ifs at h
  | release i =>
    constructor
    · intro st1 h
      simp only [loopTest, hmod] at h
      split_ifs at h with h1 h2 h3
      · cases h; exact ⟨hn, hp⟩
      · cases h
        have h2' : keys st.n = i := not_not.mp h2
        refine ⟨h3, ?_⟩
        simp only [List.range_succ, List.map_append, List.map_cons, List.map_nil, hp, h2']
    · intro v st1 h
      simp only [loopTest, hmod] at h
      split_ifs at h with h1 h2 h3
      · cases h
        right
        exact ⟨rfl, st.n, i, hn, fun e => h2 e.symm, by simp only [hp]⟩
      · cases h
        left
        have h2' : keys st.n = i := not_not.mp h2
        have hlast : st.n = steps := by omega
        refine ⟨rfl, ?_⟩
        simp only [expected, List.range_succ, List.map_append, List.map_cons, List.map_nil, hp,
          h2', ← hlast]

theorem getKeysFrom_inv (keys : Nat → Nat) (steps : Nat) (hsteps : steps < 255)
    (rs : List Pins) (st : KeysState) (hinv : KeysInv keys steps st) :
    ResultInv keys steps (getKeysFrom keys steps st rs) := by
  induction rs generalizing st with
  | nil => exact hinv
  | cons r rs ih =>
    have hstep := getKeysStep_inv keys steps hsteps st r hinv
    cases hs : getKeysStep keys steps st r with
    | next st1 =>
      rw [getKeysFrom_cons_next keys steps st st1 r rs hs]
      exact ih st1 (hstep.1 st1 hs)
    | ret v st1 =>
      rw [getKeysFrom_cons_ret keys steps st st1 v r rs hs]
      exact hstep.2 v st1 hs

theorem getKeys_inv (keys : Nat → Nat) (steps : Nat) (hsteps : steps < 255) (rs : List Pins) :
    ResultInv keys steps (getKeys keys steps rs) := by
  rw [getKeys_eq]
  exact getKeysFrom_inv keys steps hsteps rs keysInit ⟨Nat.zero_le _, rfl⟩

theorem map_range_getElem (keys : Nat → Nat) (m n : Nat) :
    ((List.range m).map keys)[n]? = if n < m then some (keys n) else none := by
  by_cases h : n < m
  · simp [h]
  · simp [h, Nat.le_of_not_lt h]

theorem prefix_getElem (keys : Nat → Nat) (n p : Nat) (more : List Nat) :
    ((List.range n).map keys ++ p :: more)[n]? = some p := by
  rw [List.getElem?_append_right (by simp)]
  simp

theorem expected_eq (keys : Nat → Nat) (steps : Nat) :
    expected keys steps = (List.range steps).map keys ++ [keys steps] := by
  simp only [expected, List.range_succ, List.map_append, List.map_cons, List.map_nil]

/-- On the reads of a player entering `keys[0..steps]`, `getKeys` returns 1
and leaves the reads that follow unread (`steps <= 254`). -/
theorem getKeys_play (keys : Nat → Nat) (steps : Nat) (hsteps : steps < 255) (rs : List Pins)
    (hkeys : ∀ i, i ≤ steps → keys i < 4) :
    getKeys keys steps (playFrom keys (steps + 1) 0 ++ rs) = KeysResult.returned 1
      { n := (steps + 1) % 256, pc := KeysPc.release (keys steps), ms := 25 * steps + 25,
        presses := (List.range steps).map keys ++ [keys steps] } rs := by
  have h1 := getKeysFrom_playFrom keys steps steps (by omega) (Nat.le_refl _)
    (fun i hi => hkeys i (by omega))
  rw [getKeys_eq, playFrom_succ_end, List.append_assoc,
    getKeysFrom_append keys steps _ _ keysInit _ h1, Nat.zero_add]
  exact getKeysFrom_press_last keys steps
    { n := steps, pc := KeysPc.poll, ms := 25 * steps,
      presses := (List.range steps).map keys }
    (keys steps) rs rfl (hkeys steps (Nat.le_refl _)) rfl
    (by show ¬ (steps + 1) % 256 ≤ steps; rw [Nat.mod_eq_of_lt (by omega)]; omega)

/-- C1: for every `steps < MAX_STEPS` (every value `main` passes, and every
index the 100-byte `keys` has) and over every stream of reads `rs`, `getKeys`
has returned 1 exactly when the confirmed presses it has consumed are
`keys[0], ..., keys[steps]`; if they start with `keys[0..n)` followed by a
press `p` other than `keys[n]`, `n <= steps`, it has returned 0 and `p` is the
last press it consumed. Both results are produced: on the reads of a player
entering `keys[0..steps]` it returns 1, and on those of a player entering
`keys[0..n)` and then a wrong `p` it returns 0, in each case leaving every
read after the release of the last press unread. -/
theorem getKeys_accepts_iff (keys : Nat → Nat) (steps : Nat) (hmax : steps < MAX_STEPS) :
    (∀ rs, (getKeys keys steps rs).value = some 1 ↔
      (getKeys keys steps rs).state.presses = expected keys steps) ∧
    (∀ rs n p more, n ≤ steps → p ≠ keys n →
      (getKeys keys steps rs).state.presses = (List.range n).map keys ++ p :: more →
      (getKeys keys steps rs).value = some 0 ∧ more = []) ∧
    (∀ rs, (∀ i, i ≤ steps → keys i < 4) →
      ∃ st, getKeys keys steps (playFrom keys (steps + 1) 0 ++ rs) =
          KeysResult.returned 1 st rs ∧
        st.presses = expected keys steps) ∧
    (∀ rs n p, n ≤ steps → p < 4 → p ≠ keys n → (∀ i, i < n → keys i < 4) →
      ∃ st, getKeys keys steps (playFrom keys n 0 ++ press p ++ rs) =
          KeysResult.returned 0 st rs ∧
        st.presses = (List.range n).map keys ++ [p]) := by
  have hsteps : steps < 255 := Nat.lt_trans hmax (by decide)
  refine ⟨?_, ?_, ?_, ?_⟩
  · intro rs
    have hinv := getKeys_inv keys steps hsteps rs
    cases hres : getKeys keys steps rs with
    | reading st =>
      rw [hres] at hinv
      obtain ⟨hn, hp⟩ := hinv
      simp only [KeysResult.value, KeysResult.state, false_iff, reduceCtorEq]
      intro h
      have hl := congrArg List.length h
      rw [hp] at hl
      simp [expected] at hl
      omega
    | returned v st rest =>
      rw [hres] at hinv
      simp only [KeysResult.value, KeysResult.state, Option.some.injEq]
      rcases hinv with ⟨hv, hp⟩ | ⟨hv, m, p, hm, hne, hp⟩
      · exact ⟨fun _ => hp, fun _ => hv⟩
      · constructor
        · intro h
          omega
        · intro h
          exfalso
          rw [hp] at h
          have hl := congrArg List.length h
          simp [expected] at hl
          have hm2 : m = steps := hl
          subst hm2
          have hg := congrArg (fun l => l[m]?) h
          simp only [prefix_getElem, expected, map_range_getElem] at hg
          simp at hg
          exact hne hg
  · intro rs n p more hn hne hpre
    have hinv := getKeys_inv keys steps hsteps rs
    have hg := congrArg (fun l => l[n]?) hpre
    simp only [prefix_getElem] at hg
    cases hres : getKeys keys steps rs with
    | reading st =>
      rw [hres] at hinv hg
      obtain ⟨hn2, hp⟩ := hinv
      simp only [KeysResult.state, hp, map_range_getElem] at hg
      split_ifs at hg with h1
      exact absurd (Option.some.inj hg).symm hne
    | returned v st rest =>
      rw [hres] at hinv hg hpre
      simp only [KeysResult.state] at hg hpre
      simp only [KeysResult.value]
      rcases hinv with ⟨hv, hp⟩ | ⟨hv, m, q, hm, hneq, hp⟩
      · exfalso
        rw [hp] at hg
        simp only [expected, map_range_getElem] at hg
        rw [if_pos (by omega)] at hg
        exact hne (Option.some.inj hg).symm
      · rw [hp] at hg hpre
        rcases Nat.lt_trichotomy n m with hlt | heq | hgt
        · exfalso
          rw [List.getElem?_append_left (by simpa using hlt), map_range_getElem,
            if_pos hlt] at hg
          exact hne (Option.some.inj hg).symm
        · subst heq
          have := List.append_cancel_left hpre
          simp only [List.cons.injEq] at this
          exact ⟨by rw [hv], this.2.symm⟩
        · exfalso
          have hl := congrArg List.length hpre
          simp at hl
          omega
  · intro rs hkeys
    refine ⟨_, getKeys_play keys steps hsteps rs hkeys, ?_⟩
    simp only [expected, List.range_succ, List.map_append, List.map_cons, List.map_nil]
  · intro rs n p hn hp hne hkeys
    have h1 := getKeysFrom_playFrom keys steps n (by omega) hn hkeys
    rw [getKeys_eq, List.append_assoc, getKeysFrom_append keys steps _ _ keysInit _ h1]
    exact ⟨_, getKeysFrom_press_wrong keys steps
      { n := n, pc := KeysPc.poll, ms := 25 * n, presses := (List.range n).map keys }
      p rs rfl hp hne, rfl⟩

theorem getKeys_accepts_iff_witness :
    ∃ st, getKeys (fun i => i % 4) 3 (playFrom (fun i => i % 4) (3 + 1) 0 ++ [pressed 2]) =
        KeysResult.returned 1 st [pressed 2] ∧
      st.presses = expected (fun i => i % 4) 3 :=
  (getKeys_accepts_iff (fun i => i % 4) 3 (by decide)).2.2.1 [pressed 2]
    (fun i _ => Nat.mod_lt i (by decide))

/-! ## Theorems: main loop -/

theorem mainRun_nil (st : MainState) : mainRun st [] = ([], some st) := rfl

theorem mainRun_cons_some (st st1 : MainState) (e : Env) (es : List Env) (cs : List Call)
    (h : mainIter st e = (cs, some st1)) :
    mainRun st (e :: es) = (cs ++ (mainRun st1 es).1, (mainRun st1 es).2) := by
  simp [mainRun, h]

theorem mainRun_cons_none (st : MainState) (e : Env) (es : List Env) (cs : List Call)
    (h : mainIter st e = (cs, none)) : mainRun st (e :: es) = (cs, none) := by
  simp [mainRun, h]

/-- A pass in the game loop with `steps < MAX_STEPS` on which `getKeys`
returns a non-zero value: `steps` is incremented. -/
theorem mainIter_success (st : MainState) (env : Env) (v : Nat) (kst : KeysState)
    (rest : List Pins) (hpc : st.pc = MainPc.game) (hlt : st.steps < MAX_STEPS)
    (hkeys : getKeys (showSequence st.keys st.steps env.seed0 env.temp0 env.adc delayTimes).1
      st.steps env.reads = KeysResult.returned v kst rest) (hv : v ≠ 0) :
    mainIter st env =
      ([Call.showSequence st.steps
          (showSequence st.keys st.steps env.seed0 env.temp0 env.adc delayTimes).2,
        Call.getKeys st.steps, Call.HAL_Delay 500],
        some { steps := (st.steps + 1) % 256,
               keys := (showSequence st.keys st.steps env.seed0 env.temp0 env.adc delayTimes).1,
               pc := MainPc.game }) := by
  simp [mainIter, hpc, hlt, hkeys, hv]

/-- A pass in the game loop with `steps >= MAX_STEPS`, or in the inner loop:
`steps = 0`, the start animation, and the inner loop from then on. -/
theorem mainIter_lockout (st : MainState) (env : Env)
    (h : st.pc = MainPc.lockout ∨ (st.pc = MainPc.game ∧ ¬ st.steps < MAX_STEPS)) :
    mainIter st env =
      ([Call.showStartAnimation],
        some { steps := 0, keys := st.keys, pc := MainPc.lockout }) := by
  rcases h with h | ⟨h1, h2⟩
  · simp [mainIter, h]
  · simp [mainIter, h1, h2]

theorem mainRun_lockout (keys : Nat → Nat) (es : List Env) :
    mainRun { steps := 0, keys := keys, pc := MainPc.lockout } es =
      (List.replicate es.length Call.showStartAnimation,
        some { steps := 0, keys := keys, pc := MainPc.lockout }) := by
  induction es with
  | nil => rfl
  | cons e es ih =>
    rw [mainRun_cons_some _ _ e es _ (mainIter_lockout _ e (Or.inl rfl)), ih]
    simp [List.replicate_succ]

/-- A `showSequence` call of one pass is made under the guard
`steps < MAX_STEPS`, with `n = steps`, and its events are those of
`showSequence` run on the globals `keys` and `delayTimes`. -/
theorem mainIter_showSequence (st : MainState) (env : Env) (n : Nat) (evs : List Event)
    (h : Call.showSequence n evs ∈ (mainIter st env).1) :
    n = st.steps ∧ st.steps < MAX_STEPS ∧
    evs = (showSequence st.keys st.steps env.seed0 env.temp0 env.adc delayTimes).2 := by
  unfold mainIter at h
  cases hpc : st.pc with
  | game =>
    rw [hpc] at h
    by_cases hlt : st.steps < MAX_STEPS
    · simp only [hlt, if_true] at h
      split at h
      · simp at h
        exact ⟨h.1, hlt, h.2⟩
      · split_ifs at h <;> simp at h <;> exact ⟨h.1, hlt, h.2⟩
    · simp [hlt] at h
  | lockout =>
    rw [hpc] at h
    simp at h

theorem mainRun_showSequence (st : MainState) (envs : List Env) (n : Nat) (evs : List Event)
    (h : Call.showSequence n evs ∈ (mainRun st envs).1) :
    n < MAX_STEPS ∧ ∃ (s : Nat → Nat) (seed0 temp0 : Nat) (adc : Nat → Nat),
      evs = (showSequence s n seed0 temp0 adc delayTimes).2 := by
  induction envs generalizing st with
  | nil => simp [mainRun_nil] at h
  | cons e es ih =>
    have key : Call.showSequence n evs ∈ (mainIter st e).1 →
        n < MAX_STEPS ∧ ∃ (s : Nat → Nat) (seed0 temp0 : Nat) (adc : Nat → Nat),
          evs = (showSequence s n seed0 temp0 adc delayTimes).2 := by
      intro hm
      obtain ⟨h1, h2, h3⟩ := mainIter_showSequence st e n evs hm
      subst h1
      exact ⟨h2, st.keys, e.seed0, e.temp0, e.adc, h3⟩
    rcases hit : mainIter st e with ⟨cs, _ | st1⟩
    · rw [mainRun_cons_none st e es cs hit] at h
      exact key (by rw [hit]; exact h)
    · rw [mainRun_cons_some st st1 e es cs hit] at h
      rcases List.mem_append.mp h with h1 | h1
      · exact key (by rw [hit]; exact h1)
      · exact ih st1 h1

/-- A `getKeys` call of one pass is made under the guard `steps < MAX_STEPS`,
with that `steps`. -/
theorem mainIter_getKeys (st : MainState) (env : Env) (n : Nat)
    (h : Call.getKeys n ∈ (mainIter st env).1) : n = st.steps ∧ st.steps < MAX_STEPS := by
  unfold mainIter at h
  cases hpc : st.pc with
  | game =>
    rw [hpc] at h
    by_cases hlt : st.steps < MAX_STEPS
    · simp only [hlt, if_true] at h
      split at h
      · simp at h
        exact ⟨h, hlt⟩
      · split_ifs at h <;> simp at h <;> exact ⟨h, hlt⟩
    · simp [hlt] at h
  | lockout =>
    rw [hpc] at h
    simp at h

/-- Every `getKeys(keys, n, ...)` call the main loop makes has
`n < MAX_STEPS`. -/
theorem mainRun_getKeys (st : MainState) (envs : List Env) (n : Nat)
    (h : Call.getKeys n ∈ (mainRun st envs).1) : n < MAX_STEPS := by
  induction envs generalizing st with
  | nil => simp [mainRun_nil] at h
  | cons e es ih =>
    rcases hit : mainIter st e with ⟨cs, _ | st1⟩
    · rw [mainRun_cons_none st e es cs hit] at h
      have := mainIter_getKeys st e n (by rw [hit]; exact h)
      omega
    · rw [mainRun_cons_some st st1 e es cs hit] at h
      rcases List.mem_append.mp h with h1 | h1
      · have := mainIter_getKeys st e n (by rw [hit]; exact h1)
        omega
      · exact ih st1 h1

theorem delays_nil : delays [] = [] := rfl

theorem delays_delay (ms : Nat) (es : List Event) :
    delays (Event.HAL_Delay ms :: es) = ms :: delays es := rfl

theorem delays_write (ch : Nat) (level : PinState) (es : List Event) :
    delays (Event.HAL_GPIO_WritePin ch level :: es) = delays es := rfl

theorem delays_sample (v : Nat) (es : List Event) :
    delays (Event.HAL_ADC_GetValue v :: es) = delays es := rfl

theorem delays_inputs (es : List Event) :
    delays (Event.setPinsAsInputs :: es) = delays es := rfl

theorem delays_outputs (es : List Event) :
    delays (Event.setPinsAsOutputs :: es) = delays es := rfl

theorem delays_append (a b : List Event) : delays (a ++ b) = delays a ++ delays b := by
  induction a with
  | nil => rfl
  | cons e es ih =>
    cases e <;>
      simp [delays_write, delays_delay, delays_sample, delays_inputs, delays_outputs, ih]

theorem delays_samples (adc : Nat → Nat) (l : List Nat) :
    delays (l.map (fun i => Event.HAL_ADC_GetValue (adc i))) = [] := by
  induction l with
  | nil => rfl
  | cons x xs ih => rw [List.map_cons, delays_sample, ih]

/-- The events of one call of `calculateNewRandom`, pass by pass. -/
theorem calculateNewRandom_events (seed0 temp0 : Nat) (adc : Nat → Nat) :
    (calculateNewRandom seed0 temp0 adc).2 =
      Event.setPinsAsInputs :: Event.HAL_Delay 1 ::
        ((List.range 23).map (fun i => Event.HAL_ADC_GetValue (adc i)) ++
          [Event.HAL_Delay ((randomLoop adc 23 0 seed0 temp0).2.1 &&& 3),
           Event.HAL_ADC_GetValue (adc 23),
           Event.HAL_Delay ((randomLoop adc 24 0 seed0 temp0).2.1 &&& 3),
           Event.HAL_ADC_GetValue (adc 24)]) := by
  rfl

theorem delays_calculateNewRandom (seed0 temp0 : Nat) (adc : Nat → Nat) :
    delays (calculateNewRandom seed0 temp0 adc).2 =
      [1, (randomLoop adc 23 0 seed0 temp0).2.1 &&& 3,
        (randomLoop adc 24 0 seed0 temp0).2.1 &&& 3] := by
  rw [calculateNewRandom_events, delays_inputs, delays_delay, delays_append, delays_samples,
    delays_delay, delays_sample, delays_delay, delays_sample, delays_nil, List.nil_append]

theorem delays_showSequenceLoop (s : Nat → Nat) (n : Nat) (dt : Nat → Nat) (todo i : Nat) :
    delays (showSequenceLoop s n dt todo i) =
      List.replicate (2 * todo) (dt ((n / 50) &&& 3)) := by
  induction todo generalizing i with
  | zero => rfl
  | succ t ih =>
    have e : 2 * (t + 1) = 2 * t + 1 + 1 := by omega
    rw [showSequenceLoop, delays_write, delays_delay, delays_write, delays_delay, ih (i + 1), e,
      List.replicate_succ, List.replicate_succ]

/-- The delays of one call of `showSequence`, in order: the settle delay and
the two jitter delays of the generator, then the two delays of each of the
`n + 1` blinks, all `dt[(n / 50) & 3]`. -/
theorem delays_showSequence (s : Nat → Nat) (n seed0 temp0 : Nat) (adc dt : Nat → Nat) :
    delays (showSequence s n seed0 temp0 adc dt).2 =
      1 :: ((randomLoop adc 23 0 seed0 temp0).2.1 &&& 3) ::
        ((randomLoop adc 24 0 seed0 temp0).2.1 &&& 3) ::
          List.replicate (2 * (n + 1)) (dt ((n / 50) &&& 3)) := by
  unfold showSequence
  simp only [delays_append, delays_calculateNewRandom, delays_outputs, delays_inputs,
    delays_nil, delays_showSequenceLoop, List.append_nil, List.cons_append, List.nil_append]

theorem delay_index (n : Nat) (h : n < MAX_STEPS) :
    (n / 50) &&& 3 = (if n < 50 then 0 else 1) := by
  unfold MAX_STEPS at h
  by_cases h50 : n < 50
  · rw [if_pos h50, Nat.div_eq_of_lt h50]
    rfl
  · rw [if_neg h50]
    have : n / 50 = 1 := by omega
    rw [this]
    rfl

theorem delay_value (n : Nat) (h : n < MAX_STEPS) :
    delayTimes ((n / 50) &&& 3) = (if n < 50 then 255 else 127) := by
  rw [delay_index n h]
  by_cases h50 : n < 50
  · rw [if_pos h50, if_pos h50]; rfl
  · rw [if_neg h50, if_neg h50]; rfl

/-- C10: every call `showSequence(keys, n, ..., delayTimes, ...)` the main
loop makes, from any state and whatever the hardware supplies, has
`n < MAX_STEPS`, so the delay index `(n / 50) & 3` is 0 or 1. The events
`evs` of that call are those of `showSequence` run with the table
`delayTimes`, and their delays are, in order, the 1 ms settle delay and the
two jitter delays (at most 3 ms) of the generator, then the `2 * (n + 1)`
blink delays, each 255 ms for `n` in 0..49 and 127 ms for `n` in 50..99; no
delay of the call is 63 or 31. -/
theorem main_showSequence_delay (st : MainState) (envs : List Env) (n : Nat)
    (evs : List Event) (hcall : Call.showSequence n evs ∈ (mainRun st envs).1) :
    n < MAX_STEPS ∧
    ((n / 50) &&& 3 = 0 ∨ (n / 50) &&& 3 = 1) ∧
    (∃ (s : Nat → Nat) (seed0 temp0 : Nat) (adc : Nat → Nat),
      evs = (showSequence s n seed0 temp0 adc delayTimes).2) ∧
    (∃ j1 j2, j1 ≤ 3 ∧ j2 ≤ 3 ∧
      delays evs =
        1 :: j1 :: j2 :: List.replicate (2 * (n + 1)) (if n < 50 then 255 else 127)) ∧
    (∀ ms, ms ∈ delays evs → ms ≠ 63 ∧ ms ≠ 31) := by
  obtain ⟨hn, s, seed0, temp0, adc, hev⟩ := mainRun_showSequence st envs n evs hcall
  have hidx := delay_index n hn
  have hd : delays evs =
      1 :: ((randomLoop adc 23 0 seed0 temp0).2.1 &&& 3) ::
        ((randomLoop adc 24 0 seed0 temp0).2.1 &&& 3) ::
          List.replicate (2 * (n + 1)) (if n < 50 then 255 else 127) := by
    rw [hev, delays_showSequence, delay_value n hn]
  have hj1 : (randomLoop adc 23 0 seed0 temp0).2.1 &&& 3 ≤ 3 := Nat.and_le_right
  have hj2 : (randomLoop adc 24 0 seed0 temp0).2.1 &&& 3 ≤ 3 := Nat.and_le_right
  refine ⟨hn, ?_, ⟨s, seed0, temp0, adc, hev⟩, ⟨_, _, hj1, hj2, hd⟩, ?_⟩
  · by_cases h50 : n < 50
    · left; rw [hidx, if_pos h50]
    · right; rw [hidx, if_neg h50]
  · intro ms hms
    rw [hd] at hms
    simp only [List.mem_cons, List.mem_replicate] at hms
    rcases hms with h | h | h | ⟨_, h⟩
    · subst h; exact ⟨by decide, by decide⟩
    · constructor <;> omega
    · constructor <;> omega
    · by_cases h50 : n < 50
      · rw [if_pos h50] at h; subst h; exact ⟨by decide, by decide⟩
      · rw [if_neg h50] at h; subst h; exact ⟨by decide, by decide⟩

theorem main_showSequence_delay_witness :
    ∃ j1 j2, j1 ≤ 3 ∧ j2 ≤ 3 ∧
      delays (showSequence mainInit.keys 0 0 0 (fun _ => 0) delayTimes).2 =
        1 :: j1 :: j2 :: List.replicate (2 * (0 + 1)) (if 0 < 50 then 255 else 127) :=
  (main_showSequence_delay mainInit
    [{ seed0 := 0, temp0 := 0, adc := fun _ => 0, reads := [] }] 0
    (showSequence mainInit.keys 0 0 0 (fun _ => 0) delayTimes).2
    (List.mem_cons_self _ _)).2.2.2.1

/-- C6: a pass of the game loop on which `getKeys` succeeds with
`steps = MAX_STEPS - 1` leaves `steps = MAX_STEPS`; and from a state of the
game loop with `steps = MAX_STEPS` every pass returns, the first enters the
inner loop, and the calls of any number of passes are start animations only:
no `showSequence` and no `getKeys` call is made again. -/
theorem main_lockout (st : MainState) (hpc : st.pc = MainPc.game)
    (hsteps : st.steps = MAX_STEPS) (e : Env) (es : List Env) :
    (mainRun st (e :: es)).1 = List.replicate (es.length + 1) Call.showStartAnimation ∧
    (mainRun st (e :: es)).2 = some { steps := 0, keys := st.keys, pc := MainPc.lockout } ∧
    (∀ n, (∀ evs, Call.showSequence n evs ∉ (mainRun st (e :: es)).1) ∧
      Call.getKeys n ∉ (mainRun st (e :: es)).1) ∧
    (∀ (prev : MainState) (env : Env) (v : Nat) (kst : KeysState) (rest : List Pins),
      prev.pc = MainPc.game → prev.steps + 1 = MAX_STEPS →
      getKeys (showSequence prev.keys prev.steps env.seed0 env.temp0 env.adc delayTimes).1
        prev.steps env.reads = KeysResult.returned v kst rest → v ≠ 0 →
      ∃ next, (mainIter prev env).2 = some next ∧ next.pc = MainPc.game ∧
        next.steps = MAX_STEPS) := by
  have hnot : ¬ st.steps < MAX_STEPS := by omega
  have hrun : mainRun st (e :: es) =
      (List.replicate (es.length + 1) Call.showStartAnimation,
        some { steps := 0, keys := st.keys, pc := MainPc.lockout }) := by
    rw [mainRun_cons_some st _ e es _ (mainIter_lockout st e (Or.inr ⟨hpc, hnot⟩)),
      mainRun_lockout st.keys es]
    simp [List.replicate_succ]
  refine ⟨by rw [hrun], by rw [hrun], ?_, ?_⟩
  · intro n
    rw [hrun]
    simp [List.mem_replicate]
  · intro prev env v kst rest hp hs hk hv
    have hlt : prev.steps < MAX_STEPS := by omega
    rw [mainIter_success prev env v kst rest hp hlt hk hv]
    refine ⟨_, rfl, rfl, ?_⟩
    show (prev.steps + 1) % 256 = MAX_STEPS
    rw [hs]
    rfl

theorem main_lockout_witness :
    (mainRun { steps := 100, keys := fun _ => 0, pc := MainPc.game }
      [{ seed0 := 0, temp0 := 0, adc := fun _ => 0, reads := [pressed 0] },
       { seed0 := 5, temp0 := 0, adc := fun _ => 9, reads := [] }]).1 =
      List.replicate 2 Call.showStartAnimation :=
  (main_lockout { steps := 100, keys := fun _ => 0, pc := MainPc.game } rfl rfl
    { seed0 := 0, temp0 := 0, adc := fun _ => 0, reads := [pressed 0] }
    [{ seed0 := 5, temp0 := 0, adc := fun _ => 9, reads := [] }]).1

/-! ### The lockout state is reached -/

theorem mainRun_append (st st1 : MainState) (a b : List Env)
    (h : (mainRun st a).2 = some st1) :
    mainRun st (a ++ b) = ((mainRun st a).1 ++ (mainRun st1 b).1, (mainRun st1 b).2) := by
  induction a generalizing st with
  | nil =>
    rw [mainRun_nil] at h
    cases h
    simp [mainRun_nil]
  | cons e es ih =>
    rcases hit : mainIter st e with ⟨cs, _ | st2⟩
    · rw [mainRun_cons_none st e es cs hit] at h
      cases h
    · rw [mainRun_cons_some st st2 e es cs hit] at h
      rw [List.cons_append, mainRun_cons_some st st2 e _ cs hit,
        mainRun_cons_some st st2 e es cs hit, ih st2 h]
      simp

/-- A pass the player wins: from a state of the game loop with
`steps < MAX_STEPS` whose buffer holds channel indices, `steps` goes up by
one. -/
theorem mainIter_win (st : MainState) (hpc : st.pc = MainPc.game) (hlt : st.steps < MAX_STEPS)
    (hkeys : ∀ i, st.keys i < 4) :
    ∃ cs st1, mainIter st (winEnv st) = (cs, some st1) ∧ st1.pc = MainPc.game ∧
      st1.steps = st.steps + 1 ∧ ∀ i, st1.keys i < 4 := by
  have hlt2 : st.steps < 100 := hlt
  have hk : ∀ i, (showSequence st.keys st.steps 0 0 (fun _ => 0) delayTimes).1 i < 4 := by
    intro i
    by_cases hi : i = st.steps
    · subst hi
      simpa [showSequence] using and_three_lt _
    · simpa [showSequence, Function.update_noteq hi] using hkeys i
  have hplay := getKeys_play (showSequence st.keys st.steps 0 0 (fun _ => 0) delayTimes).1
    st.steps (by omega) [] (fun i _ => hk i)
  rw [List.append_nil] at hplay
  have hmod : (st.steps + 1) % 256 = st.steps + 1 := Nat.mod_eq_of_lt (by omega)
  exact ⟨_, _, mainIter_success st (winEnv st) 1 _ [] hpc hlt hplay (by decide), rfl, hmod, hk⟩

theorem main_reaches (k : Nat) (hk : k ≤ MAX_STEPS) :
    ∃ envs st, (mainRun mainInit envs).2 = some st ∧ st.pc = MainPc.game ∧ st.steps = k ∧
      ∀ i, st.keys i < 4 := by
  induction k with
  | zero => exact ⟨[], mainInit, rfl, rfl, rfl, fun _ => (by decide : (0 : Nat) < 4)⟩
  | succ t ih =>
    obtain ⟨envs, st, hrun, hpc, hsteps, hkeys⟩ := ih (by omega)
    obtain ⟨cs, st1, hit, hpc1, hs1, hk1⟩ := mainIter_win st hpc (by omega) hkeys
    refine ⟨envs ++ [winEnv st], st1, ?_, hpc1, by omega, hk1⟩
    rw [mainRun_append mainInit st envs _ hrun, mainRun_cons_some st st1 _ [] cs hit]
    rfl

/-- The state in which the lockout begins is reached: some run of the main
loop from its initial state ends in the game loop with `steps = MAX_STEPS`. -/
theorem main_reaches_max :
    ∃ envs st, (mainRun mainInit envs).2 = some st ∧ st.pc = MainPc.game ∧
      st.steps = MAX_STEPS := by
  obtain ⟨envs, st, h1, h2, h3, _⟩ := main_reaches MAX_STEPS (Nat.le_refl _)
  exact ⟨envs, st, h1, h2, h3⟩

end SimonSays
